import Mathlib

/-!
Verification of the graph core of a reviewer-product "six degrees of
separation" analysis program (src/final_project/src/main.rs).

Shallow-embedding conventions used throughout this file:

* A HashSet of strings is modelled as a duplicate-free list of strings;
  HashSet.insert becomes an insert-if-absent at the back of the list.
* The HashMap from nodes to neighbour sets is modelled by the pair of its
  key set (a Finset, since key iteration order is unspecified and only
  sums over the keys are ever taken) and its lookup function, which
  returns the empty list for a missing key just as the code's
  get(..).unwrap_or(empty set) does.
* The BFS distances HashMap is modelled as an association list to which
  freshly discovered nodes are appended; lookupD is the map lookup.
* The BFS while loop is modelled by a fueled recursion; the fuel
  2 * nodes.card + 2 is proved sufficient (the loop dequeues each node at
  most once), so the fuel is an embedding artifact, not a behaviour
  change.  The abnormal outcomes - the indexing panic distances[current]
  on a missing key, and fuel exhaustion - are both mapped to none and
  both proved unreachable.
* f64 arithmetic is modelled by exact rational arithmetic; every value
  the program divides is a small nonnegative integer.  The NaN produced
  by 0.0 / 0.0 is modelled as none, and the NaN-aware float comparisons
  (any comparison with NaN is false) are modelled on Option Rat.
* The random draw inside sample_reviews (rand's choose_multiple) is made
  an explicit parameter: theorems quantify over every possible draw.
-/

/-- HashSet::insert on the duplicate-free list model of a string set: a
no-op when the element is already present, otherwise appended. -/
def listInsert (l : List String) (v : String) : List String :=
  if v ∈ l then l else l ++ [v]

/-- The Graph struct of main.rs: outedges is a HashMap from each node to
the HashSet of its neighbours.  nodes is the key set of the map and adj
its lookup (empty list for a missing key).  The two proof fields record
what construction through add_edges maintains: every stored neighbour is
itself a key, and a non-key has an empty neighbour list. -/
structure Graph where
  nodes : Finset String
  adj : String → List String
  adj_sub : ∀ x, ∀ y ∈ adj x, y ∈ nodes
  adj_dom : ∀ x, x ∉ nodes → adj x = []

/-- Graph::new: the empty adjacency map. -/
def Graph.new : Graph where
  nodes := ∅
  adj := fun _ => []
  adj_sub := by intro x y h; simp at h
  adj_dom := fun _ _ => rfl

theorem mem_listInsert {l : List String} {v y : String} :
    y ∈ listInsert l v ↔ y ∈ l ∨ y = v := by
  unfold listInsert
  split
  · rename_i h
    constructor
    · exact fun hy => Or.inl hy
    · rintro (hy | rfl)
      · exact hy
      · exact h
  · simp

/-- One half of Graph::add_edges, the line
outedges.entry(u).or_insert_with(HashSet::new).insert(v): the map entry
of u (empty if missing) gains the element v. -/
def addDirected (m : String → List String) (u v : String) : String → List String :=
  fun x => if x = u then listInsert (m x) v else m x

/-- Graph::add_edges: inserts v into the neighbour set of u, then u into
the neighbour set of v; the key set gains u and then v. -/
def Graph.add_edges (g : Graph) (u v : String) : Graph where
  nodes := insert v (insert u g.nodes)
  adj := addDirected (addDirected g.adj u v) v u
  adj_sub := by
    intro x y hy
    simp only [addDirected] at hy
    by_cases hxv : x = v
    · rw [if_pos hxv] at hy
      rcases mem_listInsert.mp hy with hy' | rfl
      · by_cases hxu : x = u
        · rw [if_pos hxu] at hy'
          rcases mem_listInsert.mp hy' with hy'' | rfl
          · exact Finset.mem_insert_of_mem (Finset.mem_insert_of_mem (g.adj_sub x y hy''))
          · exact Finset.mem_insert_self _ _
        · rw [if_neg hxu] at hy'
          exact Finset.mem_insert_of_mem (Finset.mem_insert_of_mem (g.adj_sub x y hy'))
      · exact Finset.mem_insert_of_mem (Finset.mem_insert_self _ _)
    · rw [if_neg hxv] at hy
      by_cases hxu : x = u
      · rw [if_pos hxu] at hy
        rcases mem_listInsert.mp hy with hy' | rfl
        · exact Finset.mem_insert_of_mem (Finset.mem_insert_of_mem (g.adj_sub x y hy'))
        · exact Finset.mem_insert_self _ _
      · rw [if_neg hxu] at hy
        exact Finset.mem_insert_of_mem (Finset.mem_insert_of_mem (g.adj_sub x y hy))
  adj_dom := by
    intro x hx
    simp only [Finset.mem_insert, not_or] at hx
    obtain ⟨hxv, hxu, hxn⟩ := hx
    simp only [addDirected, if_neg hxv, if_neg hxu]
    exact g.adj_dom x hxn

/-- Graph::create_undirected: folds add_edges over the edge list,
starting from the empty graph. -/
def Graph.create_undirected (edges : List (String × String)) : Graph :=
  edges.foldl (fun g e => g.add_edges e.1 e.2) Graph.new

/-- HashMap lookup on the association-list model of the BFS distances
map (first matching key wins; keys are in fact unique). -/
def lookupD : List (String × Nat) → String → Option Nat
  | [], _ => none
  | (k, dv) :: l, x => if x = k then some dv else lookupD l x

/-- The distance value stored for a key, defaulting to 0; only used on
keys that are present. -/
def valD (m : List (String × Nat)) (x : String) : Nat :=
  (lookupD m x).getD 0

/-- The key set of a distances map. -/
def keysF (m : List (String × Nat)) : Finset String :=
  (m.map Prod.fst).toFinset

/-- The inner for-loop of Graph::bfs_shortpath: given the distance d of
the dequeued node, walk its neighbour list; each neighbour not yet in
the distances map is bound to d + 1 and pushed onto the queue. -/
def bfsStep (d : Nat) : List (String × Nat) × List String → List String → List (String × Nat) × List String
  | dq, [] => dq
  | (dist, q), w :: l =>
    if (lookupD dist w).isSome then bfsStep d (dist, q) l
    else bfsStep d (dist ++ [(w, d + 1)], q ++ [w]) l

/-- The while-let loop of Graph::bfs_shortpath, with explicit fuel.
none models both abnormal outcomes, the distances[current] indexing
panic on a missing key and fuel exhaustion; both are proved to never
happen for the fuel chosen in bfs_shortpath. -/
def bfsAux (g : Graph) : Nat → List (String × Nat) → List String → Option (List (String × Nat))
  | 0, _, _ => none
  | _ + 1, dist, [] => some dist
  | fuel + 1, dist, current :: rest =>
    match lookupD dist current with
    | none => none
    | some d =>
      let p := bfsStep d (dist, rest) (g.adj current)
      bfsAux g fuel p.1 p.2

/-- Graph::bfs_shortpath: distances starts as the singleton map
start maps-to 0, the queue as [start], and the loop runs to completion
(the fuel bound is proved sufficient below). -/
def Graph.bfs_shortpath (g : Graph) (start : String) : Option (List (String × Nat)) :=
  bfsAux g (2 * g.nodes.card + 2) [(start, 0)] [start]

/-- The contribution of one BFS run to total_length: the sum of the
strictly positive values of the distances map. -/
def posDistSum (m : List (String × Nat)) : Nat :=
  ((m.map Prod.snd).filter (fun dv => decide (0 < dv))).sum

/-- The contribution of one BFS run to total_path: the number of
strictly positive values of the distances map. -/
def posDistCount (m : List (String × Nat)) : Nat :=
  ((m.map Prod.snd).filter (fun dv => decide (0 < dv))).length

/-- The total_length accumulator of Graph::average_shortpath: for every
key of the adjacency map, the positive distances of a BFS run from it,
summed. -/
def Graph.total_length (g : Graph) : Nat :=
  Finset.sum g.nodes (fun n => posDistSum ((g.bfs_shortpath n).getD []))

/-- The total_path accumulator of Graph::average_shortpath. -/
def Graph.total_path (g : Graph) : Nat :=
  Finset.sum g.nodes (fun n => posDistCount ((g.bfs_shortpath n).getD []))

/-- Graph::average_shortpath: total_length as f64 / total_path as f64,
with f64 modelled as exact rationals and the NaN arising from the
un-special-cased 0.0 / 0.0 division modelled as none. -/
def Graph.average_shortpath (g : Graph) : Option ℚ :=
  if g.total_path = 0 then none
  else some ((g.total_length : ℚ) / (g.total_path : ℚ))

/-- Float less-or-equal against a constant, as used for the 6.0
threshold tests: false whenever the left side is NaN. -/
def optLe (x : Option ℚ) (c : ℚ) : Bool :=
  match x with
  | none => false
  | some a => decide (a ≤ c)

/-- Float strict comparison of the two averages: false whenever either
side is NaN. -/
def optLt (x y : Option ℚ) : Bool :=
  match x, y with
  | some a, some b => decide (a < b)
  | _, _ => false

/-- Which of the three final println branches of
compare_average_shortpaths runs. -/
inductive Verdict where
  | graph1Shorter : Verdict
  | graph2Shorter : Verdict
  | bothEqual : Verdict
deriving DecidableEq

/-- The observable output of compare_average_shortpaths: the two
averages, the two six-degrees threshold tests, and which comparison
branch reports. -/
structure CompareResult where
  avg_length1 : Option ℚ
  avg_length2 : Option ℚ
  six_degrees_1 : Bool
  six_degrees_2 : Bool
  verdict : Verdict
deriving DecidableEq

/-- compare_average_shortpaths, with the println side effects abstracted
into the returned record. -/
def compare_average_shortpaths (g1 g2 : Graph) : CompareResult :=
  let avg_length1 := g1.average_shortpath
  let avg_length2 := g2.average_shortpath
  { avg_length1 := avg_length1
    avg_length2 := avg_length2
    six_degrees_1 := optLe avg_length1 6
    six_degrees_2 := optLe avg_length2 6
    verdict :=
      if optLt avg_length1 avg_length2 then Verdict.graph1Shorter
      else if optLt avg_length2 avg_length1 then Verdict.graph2Shorter
      else Verdict.bothEqual }

/-- The Review record: the two string fields the core consumes. -/
structure Review where
  reviewer_id : String
  asin : String
deriving DecidableEq

/-- The unique_ids set of sample_reviews: every entity mentioned by some
record (each record contributes its reviewer_id and its asin). -/
def unique_ids (reviews : List Review) : Finset String :=
  (reviews.foldr (fun r acc => r.reviewer_id :: r.asin :: acc) []).toFinset

/-- sample_reviews with the random draw made explicit: sample_id_set
stands for the set of ids returned by choose_multiple (a uniform draw
without replacement from unique_ids, of size
min target_size (unique_ids).card per choose_multiple's contract).  The
function keeps every record with at least one endpoint in the drawn set
and projects it to its (reviewer_id, asin) pair. -/
def sample_reviews (reviews : List Review) (sample_id_set : Finset String) : List (String × String) :=
  (reviews.filter (fun r => decide (r.reviewer_id ∈ sample_id_set ∨ r.asin ∈ sample_id_set))).map
    (fun r => (r.reviewer_id, r.asin))

/-- The path graph A - B - C - D used by the spec's examples and the
repository's tests. -/
def pathABCD : Graph :=
  Graph.create_undirected [("A", "B"), ("B", "C"), ("C", "D")]

/-- The path graph A - B - C of the comparison test. -/
def pathABC : Graph :=
  Graph.create_undirected [("A", "B"), ("B", "C")]

/-- The path graph A - B - D - E of the comparison test. -/
def pathABDE : Graph :=
  Graph.create_undirected [("A", "B"), ("B", "D"), ("D", "E")]

/-- Directed walk of a given length through the adjacency structure:
ReachN g n x y holds when some walk of exactly n edges leads from x to
y.  Shortest-path distance from x to y is the least such n. -/
inductive ReachN (g : Graph) (x : String) : Nat → String → Prop where
  | refl : ReachN g x 0 x
  | step {n : Nat} {y z : String} : ReachN g x n y → z ∈ g.adj y → ReachN g x (n + 1) z

theorem lookupD_append_some {m e : List (String × Nat)} {x : String} {d : Nat}
    (h : lookupD m x = some d) : lookupD (m ++ e) x = some d := by
  induction m with
  | nil => simp [lookupD] at h
  | cons p l ih =>
    obtain ⟨k, dv⟩ := p
    by_cases hk : x = k
    · simpa [lookupD, hk] using h
    · simp only [lookupD, if_neg hk] at h
      simp only [List.cons_append, lookupD, if_neg hk]
      exact ih h

theorem lookupD_append_none {m e : List (String × Nat)} {x : String}
    (h : lookupD m x = none) : lookupD (m ++ e) x = lookupD e x := by
  induction m with
  | nil => simp
  | cons p l ih =>
    obtain ⟨k, dv⟩ := p
    by_cases hk : x = k
    · simp [lookupD, hk] at h
    · simp only [lookupD, if_neg hk] at h
      simp only [List.cons_append, lookupD, if_neg hk]
      exact ih h

theorem lookupD_isSome_iff {m : List (String × Nat)} {x : String} :
    (lookupD m x).isSome = true ↔ x ∈ m.map Prod.fst := by
  induction m with
  | nil => simp [lookupD]
  | cons p l ih =>
    obtain ⟨k, dv⟩ := p
    by_cases hk : x = k
    · simp [lookupD, hk]
    · simp [lookupD, if_neg hk, ih, hk]

theorem lookupD_eq_none_iff {m : List (String × Nat)} {x : String} :
    lookupD m x = none ↔ x ∉ m.map Prod.fst := by
  rw [← lookupD_isSome_iff]
  cases lookupD m x <;> simp

theorem lookupD_constMap {ws : List String} {c : Nat} {x : String} :
    lookupD (ws.map (fun w => (w, c))) x = if x ∈ ws then some c else none := by
  induction ws with
  | nil => simp [lookupD]
  | cons w l ih =>
    by_cases hw : x = w
    · simp [lookupD, hw]
    · simp [lookupD, if_neg hw, ih, hw]

theorem mem_of_lookupD {m : List (String × Nat)} {x : String} {d : Nat}
    (h : lookupD m x = some d) : (x, d) ∈ m := by
  induction m with
  | nil => simp [lookupD] at h
  | cons p l ih =>
    obtain ⟨k, dv⟩ := p
    by_cases hk : x = k
    · subst hk
      simp only [lookupD, if_pos rfl] at h
      injection h with h
      subst h
      exact List.mem_cons_self _ _
    · simp only [lookupD, if_neg hk] at h
      exact List.mem_cons_of_mem _ (ih h)

theorem lookupD_of_mem_nodup {m : List (String × Nat)} {x : String} {d : Nat}
    (hn : (m.map Prod.fst).Nodup) (h : (x, d) ∈ m) : lookupD m x = some d := by
  induction m with
  | nil => simp at h
  | cons p l ih =>
    obtain ⟨k, dv⟩ := p
    rcases List.mem_cons.mp h with heq | hmem
    · injection heq with h1 h2
      subst h1; subst h2
      simp [lookupD]
    · have hnod : k ∉ l.map Prod.fst ∧ (l.map Prod.fst).Nodup := by
        rw [List.map_cons, List.nodup_cons] at hn
        exact hn
      have hk : x ≠ k := by
        intro hxk
        subst hxk
        exact hnod.1 (List.mem_map_of_mem Prod.fst hmem)
      simp only [lookupD, if_neg hk]
      exact ih hnod.2 hmem

theorem pairwise_transfer {l : List String} {R S : String → String → Prop}
    (h : ∀ a ∈ l, ∀ b ∈ l, R a b → S a b) : l.Pairwise R → l.Pairwise S := by
  induction l with
  | nil => intro; exact List.Pairwise.nil
  | cons a t ih =>
    intro hp
    rw [List.pairwise_cons] at hp ⊢
    constructor
    · intro b hb
      exact h a (List.mem_cons_self _ _) b (List.mem_cons_of_mem _ hb) (hp.1 b hb)
    · exact ih (fun a' ha' b' hb' => h a' (List.mem_cons_of_mem _ ha') b' (List.mem_cons_of_mem _ hb')) hp.2

theorem pairwise_of_forall {l : List String} {S : String → String → Prop}
    (h : ∀ a ∈ l, ∀ b ∈ l, S a b) : l.Pairwise S := by
  induction l with
  | nil => exact List.Pairwise.nil
  | cons a t ih =>
    rw [List.pairwise_cons]
    exact ⟨fun b hb => h a (List.mem_cons_self _ _) b (List.mem_cons_of_mem _ hb),
      ih (fun a' ha' b' hb' => h a' (List.mem_cons_of_mem _ ha') b' (List.mem_cons_of_mem _ hb'))⟩

theorem bfsStep_spec (d : Nat) (l : List String) :
    ∀ (dist : List (String × Nat)) (q : List String),
    ∃ news : List String,
      (bfsStep d (dist, q) l).1 = dist ++ news.map (fun w => (w, d + 1)) ∧
      (bfsStep d (dist, q) l).2 = q ++ news ∧
      news.Nodup ∧
      (∀ w ∈ news, w ∈ l ∧ lookupD dist w = none) ∧
      (∀ w ∈ l, lookupD dist w = none → w ∈ news) := by
  induction l with
  | nil =>
    intro dist q
    exact ⟨[], by simp [bfsStep], by simp [bfsStep], List.nodup_nil, by simp, by simp⟩
  | cons w l ih =>
    intro dist q
    by_cases hw : (lookupD dist w).isSome
    · obtain ⟨news, h1, h2, h3, h4, h5⟩ := ih dist q
      have hred : bfsStep d (dist, q) (w :: l) = bfsStep d (dist, q) l := by
        simp [bfsStep, hw]
      refine ⟨news, by rw [hred]; exact h1, by rw [hred]; exact h2, h3, ?_, ?_⟩
      · intro w' hw'
        exact ⟨List.mem_cons_of_mem _ (h4 w' hw').1, (h4 w' hw').2⟩
      · intro w' hw' hnone
        rcases List.mem_cons.mp hw' with rfl | hmem
        · rw [hnone] at hw; simp at hw
        · exact h5 w' hmem hnone
    · have hnone : lookupD dist w = none := by
        cases hc : lookupD dist w with
        | none => rfl
        | some dd => rw [hc] at hw; simp at hw
      obtain ⟨news, h1, h2, h3, h4, h5⟩ := ih (dist ++ [(w, d + 1)]) (q ++ [w])
      have hred : bfsStep d (dist, q) (w :: l) = bfsStep d (dist ++ [(w, d + 1)], q ++ [w]) l := by
        simp [bfsStep, hw]
      refine ⟨w :: news, ?_, ?_, ?_, ?_, ?_⟩
      · rw [hred, h1]; simp
      · rw [hred, h2]; simp
      · refine List.nodup_cons.mpr ⟨?_, h3⟩
        intro hwn
        have h := (h4 w hwn).2
        rw [lookupD_append_none hnone] at h
        simp [lookupD] at h
      · intro w' hw'
        rcases List.mem_cons.mp hw' with rfl | hmem
        · exact ⟨List.mem_cons_self _ _, hnone⟩
        · obtain ⟨hl, hn⟩ := h4 w' hmem
          refine ⟨List.mem_cons_of_mem _ hl, ?_⟩
          cases hcase : lookupD dist w' with
          | none => rfl
          | some dd => rw [lookupD_append_some hcase] at hn; cases hn
      · intro w' hw' hnone'
        rcases List.mem_cons.mp hw' with rfl | hmem
        · exact List.mem_cons_self _ _
        · by_cases hww : w' = w
          · subst hww; exact List.mem_cons_self _ _
          · refine List.mem_cons_of_mem _ (h5 w' hmem ?_)
            rw [lookupD_append_none hnone']
            simp [lookupD, hww]

theorem map_fst_pairs {ws : List String} {c : Nat} :
    (ws.map (fun w => (w, c))).map Prod.fst = ws := by
  induction ws with
  | nil => rfl
  | cons w l ih => simp [ih]

/-- The loop invariant of bfs_shortpath, holding at the head of every
iteration of the while loop.  dist is the distances map, q the queue.
The fields: start keeps distance 0; keys are unique and drawn from the
graph's nodes plus the start; the queue holds no duplicates and only
discovered nodes; every recorded distance is realised by a walk from
start; queue distances are non-decreasing; every recorded distance is at
most the head's distance plus one; and every dequeued (discovered but no
longer queued) node has all its neighbours discovered with distance at
most its own plus one. -/
structure BfsInv (g : Graph) (s : String) (dist : List (String × Nat)) (q : List String) : Prop where
  start0 : lookupD dist s = some 0
  nodupK : (dist.map Prod.fst).Nodup
  kdom : ∀ x ∈ dist.map Prod.fst, x ∈ insert s g.nodes
  nodupQ : q.Nodup
  qmem : ∀ x ∈ q, (lookupD dist x).isSome = true
  sound : ∀ v dv, lookupD dist v = some dv → ReachN g s dv v
  mono : q.Pairwise (fun a b => valD dist a ≤ valD dist b)
  bound : ∀ u, q.head? = some u → ∀ v dv, lookupD dist v = some dv → dv ≤ valD dist u + 1
  proc : ∀ u du, lookupD dist u = some du → u ∉ q →
    ∀ w ∈ g.adj u, ∃ dw, lookupD dist w = some dw ∧ dw ≤ du + 1

/-- What holds of the distances map when the queue has drained. -/
structure BfsPost (g : Graph) (s : String) (m : List (String × Nat)) : Prop where
  start0 : lookupD m s = some 0
  nodupK : (m.map Prod.fst).Nodup
  kdom : ∀ x ∈ m.map Prod.fst, x ∈ insert s g.nodes
  sound : ∀ v dv, lookupD m v = some dv → ReachN g s dv v
  closed : ∀ u du, lookupD m u = some du → ∀ w ∈ g.adj u, ∃ dw, lookupD m w = some dw ∧ dw ≤ du + 1

theorem bfsInv_step {g : Graph} {s u : String} {dist : List (String × Nat)} {qr : List String} {du : Nat}
    (inv : BfsInv g s dist (u :: qr)) (hdu : lookupD dist u = some du) :
    BfsInv g s (bfsStep du (dist, qr) (g.adj u)).1 (bfsStep du (dist, qr) (g.adj u)).2 := by
  obtain ⟨news, h1, h2, hnodup, hmem, hcompl⟩ := bfsStep_spec du (g.adj u) dist qr
  rw [h1, h2]
  have hfresh : ∀ w ∈ news, lookupD dist w = none := fun w hw => (hmem w hw).2
  have hnews_adj : ∀ w ∈ news, w ∈ g.adj u := fun w hw => (hmem w hw).1
  have hF1 : ∀ w ∈ news, lookupD (dist ++ news.map (fun w => (w, du + 1))) w = some (du + 1) := by
    intro w hw
    rw [lookupD_append_none (hfresh w hw), lookupD_constMap, if_pos hw]
  have hF2 : ∀ v dv, lookupD dist v = some dv →
      lookupD (dist ++ news.map (fun w => (w, du + 1))) v = some dv :=
    fun v dv h => lookupD_append_some h
  have hF3 : ∀ v dv, lookupD (dist ++ news.map (fun w => (w, du + 1))) v = some dv →
      lookupD dist v = some dv ∨ (lookupD dist v = none ∧ v ∈ news ∧ dv = du + 1) := by
    intro v dv h
    cases hc : lookupD dist v with
    | some d0 =>
      left
      rw [lookupD_append_some hc] at h
      exact h
    | none =>
      right
      rw [lookupD_append_none hc, lookupD_constMap] at h
      by_cases hv : v ∈ news
      · rw [if_pos hv] at h
        injection h with h
        exact ⟨rfl, hv, h.symm⟩
      · rw [if_neg hv] at h
        cases h
  have hQsome : ∀ x ∈ qr, (lookupD dist x).isSome = true :=
    fun x hx => inv.qmem x (List.mem_cons_of_mem _ hx)
  have hvalEq : ∀ x, (lookupD dist x).isSome = true →
      valD (dist ++ news.map (fun w => (w, du + 1))) x = valD dist x := by
    intro x hx
    obtain ⟨dv, hdv⟩ := Option.isSome_iff_exists.mp hx
    rw [valD, valD, hdv, hF2 x dv hdv]
  have hvalNews : ∀ w ∈ news, valD (dist ++ news.map (fun w => (w, du + 1))) w = du + 1 := by
    intro w hw
    rw [valD, hF1 w hw]
    rfl
  have hvalu : valD dist u = du := by rw [valD, hdu]; rfl
  have hqr_ge : ∀ x ∈ qr, du ≤ valD dist x := by
    have hm := inv.mono
    rw [List.pairwise_cons] at hm
    intro x hx
    have h := hm.1 x hx
    rwa [hvalu] at h
  have hbound : ∀ v dv, lookupD dist v = some dv → dv ≤ du + 1 := by
    intro v dv h
    have hb := inv.bound u rfl v dv h
    rwa [hvalu] at hb
  have hkeys : (dist ++ news.map (fun w => (w, du + 1))).map Prod.fst = dist.map Prod.fst ++ news := by
    rw [List.map_append, map_fst_pairs]
  have hkeysD : List.Disjoint (dist.map Prod.fst) news := by
    intro a ha hb
    have := hfresh a hb
    rw [lookupD_eq_none_iff] at this
    exact this ha
  refine ⟨?_, ?_, ?_, ?_, ?_, ?_, ?_, ?_, ?_⟩
  · exact hF2 _ _ inv.start0
  · rw [hkeys, List.nodup_append]
    exact ⟨inv.nodupK, hnodup, hkeysD⟩
  · rw [hkeys]
    intro x hx
    rcases List.mem_append.mp hx with hx | hx
    · exact inv.kdom x hx
    · exact Finset.mem_insert_of_mem (g.adj_sub u x (hnews_adj x hx))
  · rw [List.nodup_append]
    refine ⟨List.Nodup.of_cons inv.nodupQ, hnodup, ?_⟩
    intro a ha hb
    have h1' := hQsome a ha
    rw [lookupD_isSome_iff] at h1'
    exact hkeysD h1' hb
  · intro x hx
    rcases List.mem_append.mp hx with hx | hx
    · obtain ⟨dv, hdv⟩ := Option.isSome_iff_exists.mp (hQsome x hx)
      rw [hF2 x dv hdv]
      rfl
    · rw [hF1 x hx]
      rfl
  · intro v dv h
    rcases hF3 v dv h with hold | ⟨_, hvnews, rfl⟩
    · exact inv.sound v dv hold
    · exact ReachN.step (inv.sound u du hdu) (hnews_adj v hvnews)
  · rw [List.pairwise_append]
    refine ⟨?_, ?_, ?_⟩
    · refine pairwise_transfer ?_ (List.Pairwise.of_cons inv.mono)
      intro a ha b hb hr
      rw [hvalEq a (hQsome a ha), hvalEq b (hQsome b hb)]
      exact hr
    · refine pairwise_of_forall ?_
      intro a ha b hb
      rw [hvalNews a ha, hvalNews b hb]
    · intro a ha b hb
      rw [hvalEq a (hQsome a ha), hvalNews b hb]
      obtain ⟨dv, hdv⟩ := Option.isSome_iff_exists.mp (hQsome a ha)
      rw [valD, hdv]
      have := hbound a dv hdv
      simp only [Option.getD_some]
      omega
  · intro u' hu' v dv h
    have hu'mem : u' ∈ qr ++ news := List.mem_of_mem_head? (by rw [Option.mem_def]; exact hu')
    have hval : du ≤ valD (dist ++ news.map (fun w => (w, du + 1))) u' := by
      rcases List.mem_append.mp hu'mem with hq | hn
      · rw [hvalEq u' (hQsome u' hq)]
        exact hqr_ge u' hq
      · rw [hvalNews u' hn]
        omega
    have hdvle : dv ≤ du + 1 := by
      rcases hF3 v dv h with hold | ⟨_, _, rfl⟩
      · exact hbound v dv hold
      · exact le_refl _
    omega
  · intro u0 du0 h0 hnq
    rw [List.mem_append] at hnq
    push_neg at hnq
    rcases hF3 u0 du0 h0 with hold | ⟨_, hns, _⟩
    · by_cases huu : u0 = u
      · subst huu
        have hdu0 : du0 = du := by
          rw [hold] at hdu
          exact Option.some.inj hdu
        subst hdu0
        intro w hw
        cases hcw : lookupD dist w with
        | some dw =>
          exact ⟨dw, hF2 _ _ hcw, hbound w dw hcw⟩
        | none =>
          exact ⟨du0 + 1, hF1 w (hcompl w hw hcw), le_refl _⟩
      · have hnotin : u0 ∉ u :: qr := by
          intro hmem'
          rcases List.mem_cons.mp hmem' with h' | h'
          · exact huu h'
          · exact hnq.1 h'
        intro w hw
        obtain ⟨dw, hdw, hle⟩ := inv.proc u0 du0 hold hnotin w hw
        exact ⟨dw, hF2 _ _ hdw, hle⟩
    · exact absurd hns hnq.2

theorem bfsStep_card (g : Graph) (u : String) (dist : List (String × Nat)) (qr : List String) (du : Nat) :
    2 * (g.nodes \ keysF (bfsStep du (dist, qr) (g.adj u)).1).card
        + (bfsStep du (dist, qr) (g.adj u)).2.length
      < 2 * (g.nodes \ keysF dist).card + (u :: qr).length := by
  obtain ⟨news, h1, h2, hnodup, hmem, hcompl⟩ := bfsStep_spec du (g.adj u) dist qr
  rw [h1, h2]
  have hk : keysF (dist ++ news.map (fun w => (w, du + 1))) = keysF dist ∪ news.toFinset := by
    rw [keysF, List.map_append, map_fst_pairs, List.toFinset_append]
    rfl
  rw [hk]
  have hsub : news.toFinset ⊆ g.nodes \ keysF dist := by
    intro x hx
    rw [List.mem_toFinset] at hx
    rw [Finset.mem_sdiff]
    refine ⟨g.adj_sub u x (hmem x hx).1, ?_⟩
    rw [keysF, List.mem_toFinset]
    exact lookupD_eq_none_iff.mp (hmem x hx).2
  have hsd : g.nodes \ (keysF dist ∪ news.toFinset) = (g.nodes \ keysF dist) \ news.toFinset := by
    ext x
    simp only [Finset.mem_sdiff, Finset.mem_union]
    tauto
  rw [hsd, Finset.card_sdiff hsub]
  have hcard : news.toFinset.card = news.length := List.toFinset_card_of_nodup hnodup
  rw [hcard]
  have hle : news.length ≤ (g.nodes \ keysF dist).card := by
    rw [← hcard]
    exact Finset.card_le_card hsub
  rw [List.length_append, List.length_cons]
  omega

theorem bfsAux_post {g : Graph} {s : String} :
    ∀ (fuel : Nat) (dist : List (String × Nat)) (q : List String),
    BfsInv g s dist q → 2 * (g.nodes \ keysF dist).card + q.length < fuel →
    ∃ m, bfsAux g fuel dist q = some m ∧ BfsPost g s m := by
  intro fuel
  induction fuel with
  | zero =>
    intro dist q _ h
    exact absurd h (Nat.not_lt_zero _)
  | succ fuel ih =>
    intro dist q inv h
    cases q with
    | nil =>
      refine ⟨dist, rfl, ?_⟩
      exact ⟨inv.start0, inv.nodupK, inv.kdom, inv.sound,
        fun u du hdu w hw => inv.proc u du hdu (by simp) w hw⟩
    | cons u qr =>
      have hu : (lookupD dist u).isSome = true := inv.qmem u (List.mem_cons_self _ _)
      obtain ⟨du, hdu⟩ := Option.isSome_iff_exists.mp hu
      have inv' := bfsInv_step inv hdu
      have hmeas := bfsStep_card g u dist qr du
      obtain ⟨m, hm, hpost⟩ := ih _ _ inv' (by omega)
      refine ⟨m, ?_, hpost⟩
      show bfsAux g (fuel + 1) dist (u :: qr) = some m
      rw [bfsAux, hdu]
      exact hm

theorem bfsInv_init (g : Graph) (s : String) : BfsInv g s [(s, 0)] [s] := by
  refine ⟨?_, ?_, ?_, ?_, ?_, ?_, ?_, ?_, ?_⟩
  · simp [lookupD]
  · simp
  · intro x hx
    simp at hx
    subst hx
    exact Finset.mem_insert_self _ _
  · simp
  · intro x hx
    simp at hx
    subst hx
    simp [lookupD]
  · intro v dv h
    simp only [lookupD] at h
    by_cases hv : v = s
    · rw [if_pos hv] at h
      injection h with h
      subst hv
      rw [← h]
      exact ReachN.refl
    · rw [if_neg hv] at h
      cases h
  · simp
  · intro u hu v dv h
    simp only [List.head?_cons] at hu
    injection hu with hu
    subst hu
    simp only [lookupD] at h
    by_cases hv : v = s
    · rw [if_pos hv] at h
      injection h with h
      simp [valD, lookupD]
      omega
    · rw [if_neg hv] at h
      cases h
  · intro u du hdu hq
    exfalso
    apply hq
    simp only [lookupD] at hdu
    by_cases hv : u = s
    · subst hv
      exact List.mem_cons_self _ _
    · rw [if_neg hv] at hdu
      cases hdu

/-- bfs_shortpath always succeeds (the panic and the fuel bound are both
unreachable) and its result satisfies the BFS postcondition. -/
theorem bfs_correct (g : Graph) (s : String) :
    ∃ m, g.bfs_shortpath s = some m ∧ BfsPost g s m := by
  have hm : 2 * (g.nodes \ keysF [(s, 0)]).card + [s].length < 2 * g.nodes.card + 2 := by
    have hle : (g.nodes \ keysF [(s, 0)]).card ≤ g.nodes.card :=
      Finset.card_le_card Finset.sdiff_subset
    simp only [List.length_singleton]
    omega
  exact bfsAux_post (2 * g.nodes.card + 2) [(s, 0)] [s] (bfsInv_init g s) hm

/-- Every walk from start reaches a discovered node, with recorded
distance at most the walk's length. -/
theorem BfsPost.complete {g : Graph} {s : String} {m : List (String × Nat)}
    (post : BfsPost g s m) :
    ∀ {n : Nat} {v : String}, ReachN g s n v → ∃ dv, lookupD m v = some dv ∧ dv ≤ n := by
  intro n v h
  induction h with
  | refl => exact ⟨0, post.start0, le_refl 0⟩
  | step hr hz ih =>
    obtain ⟨dy, hdy, hley⟩ := ih
    obtain ⟨dz, hdz, hlez⟩ := post.closed _ dy hdy _ hz
    exact ⟨dz, hdz, by omega⟩

/-- The recorded distance of a discovered node is exactly the length of
a shortest walk from start to it. -/
theorem BfsPost.char {g : Graph} {s : String} {m : List (String × Nat)}
    (post : BfsPost g s m) (v : String) (dv : Nat) :
    lookupD m v = some dv ↔ ReachN g s dv v ∧ ∀ n, ReachN g s n v → dv ≤ n := by
  constructor
  · intro h
    refine ⟨post.sound v dv h, ?_⟩
    intro n hn
    obtain ⟨dv', hdv', hle⟩ := post.complete hn
    rw [h] at hdv'
    injection hdv' with hdv'
    omega
  · rintro ⟨hreach, hmin⟩
    obtain ⟨dv', hdv', hle⟩ := post.complete hreach
    have hge := hmin dv' (post.sound v dv' hdv')
    have : dv' = dv := by omega
    rw [← this]
    exact hdv'

theorem listInsert_of_mem {l : List String} {v : String} (h : v ∈ l) : listInsert l v = l := by
  rw [listInsert, if_pos h]

theorem mem_listInsert_self (l : List String) (v : String) : v ∈ listInsert l v :=
  mem_listInsert.mpr (Or.inr rfl)

theorem listInsert_idem (l : List String) (v : String) :
    listInsert (listInsert l v) v = listInsert l v :=
  listInsert_of_mem (mem_listInsert_self l v)

/-- Membership in the adjacency sets after add_edges: the old edges plus
the two directed copies of the new one. -/
theorem mem_adj_add_edges {g : Graph} {u v x y : String} :
    y ∈ (g.add_edges u v).adj x ↔ y ∈ g.adj x ∨ (x = u ∧ y = v) ∨ (x = v ∧ y = u) := by
  show y ∈ addDirected (addDirected g.adj u v) v u x ↔ _
  simp only [addDirected]
  by_cases hxv : x = v
  · rw [if_pos hxv]
    by_cases hxu : x = u
    · rw [if_pos hxu, mem_listInsert, mem_listInsert]
      constructor
      · rintro ((h | rfl) | rfl)
        · exact Or.inl h
        · exact Or.inr (Or.inl ⟨hxu, rfl⟩)
        · exact Or.inr (Or.inr ⟨hxv, rfl⟩)
      · rintro (h | ⟨_, rfl⟩ | ⟨_, rfl⟩)
        · exact Or.inl (Or.inl h)
        · exact Or.inl (Or.inr rfl)
        · exact Or.inr rfl
    · rw [if_neg hxu, mem_listInsert]
      constructor
      · rintro (h | rfl)
        · exact Or.inl h
        · exact Or.inr (Or.inr ⟨hxv, rfl⟩)
      · rintro (h | ⟨hxu', _⟩ | ⟨_, rfl⟩)
        · exact Or.inl h
        · exact absurd hxu' hxu
        · exact Or.inr rfl
  · rw [if_neg hxv]
    by_cases hxu : x = u
    · rw [if_pos hxu, mem_listInsert]
      constructor
      · rintro (h | rfl)
        · exact Or.inl h
        · exact Or.inr (Or.inl ⟨hxu, rfl⟩)
      · rintro (h | ⟨_, rfl⟩ | ⟨hxv', _⟩)
        · exact Or.inl h
        · exact Or.inr rfl
        · exact absurd hxv' hxv
    · rw [if_neg hxu]
      constructor
      · exact fun h => Or.inl h
      · rintro (h | ⟨hxu', _⟩ | ⟨hxv', _⟩)
        · exact h
        · exact absurd hxu' hxu
        · exact absurd hxv' hxv

/-- Adjacency symmetry as a predicate on graphs. -/
def SymAdj (g : Graph) : Prop := ∀ a b : String, a ∈ g.adj b ↔ b ∈ g.adj a

theorem symAdj_new : SymAdj Graph.new := by
  intro a b
  constructor <;> intro h <;> exact absurd h (List.not_mem_nil _)

theorem symAdj_add_edges {g : Graph} (hs : SymAdj g) (u v : String) :
    SymAdj (g.add_edges u v) := by
  intro a b
  rw [mem_adj_add_edges, mem_adj_add_edges]
  constructor
  · rintro (h | ⟨rfl, rfl⟩ | ⟨rfl, rfl⟩)
    · exact Or.inl ((hs a b).mp h)
    · exact Or.inr (Or.inr ⟨rfl, rfl⟩)
    · exact Or.inr (Or.inl ⟨rfl, rfl⟩)
  · rintro (h | ⟨rfl, rfl⟩ | ⟨rfl, rfl⟩)
    · exact Or.inl ((hs b a).mp h)
    · exact Or.inr (Or.inr ⟨rfl, rfl⟩)
    · exact Or.inr (Or.inl ⟨rfl, rfl⟩)

theorem symAdj_foldl : ∀ (edges : List (String × String)) (g : Graph), SymAdj g →
    SymAdj (edges.foldl (fun g e => g.add_edges e.1 e.2) g) := by
  intro edges
  induction edges with
  | nil => exact fun g h => h
  | cons e t ih => exact fun g h => ih _ (symAdj_add_edges h e.1 e.2)

/-- Two graphs with the same key set and the same adjacency function are
equal (the invariant fields are proof-irrelevant). -/
theorem Graph.ext_of {g1 g2 : Graph} (hn : g1.nodes = g2.nodes) (ha : g1.adj = g2.adj) :
    g1 = g2 := by
  cases g1
  cases g2
  simp only at hn ha
  subst hn
  subst ha
  rfl

/-- Walks survive the addition of edges. -/
theorem ReachN.mono {g g2 : Graph} (hsub : ∀ x y, y ∈ g.adj x → y ∈ g2.adj x)
    {s : String} {n : Nat} {v : String} (h : ReachN g s n v) : ReachN g2 s n v := by
  induction h with
  | refl => exact ReachN.refl
  | step hr hz ih => exact ReachN.step ih (hsub _ _ hz)

/-- If the start has no neighbours, only the start is reachable. -/
theorem reach_isolated {g : Graph} {s : String} (h : g.adj s = [])
    {n : Nat} {v : String} (hr : ReachN g s n v) : v = s := by
  induction hr with
  | refl => rfl
  | step hr hz ih =>
    subst ih
    rw [h] at hz
    exact absurd hz (List.not_mem_nil _)

/-- If every edge of the graph is a self-loop, only the start is
reachable. -/
theorem reach_selfloops {g : Graph} (h : ∀ x, ∀ y ∈ g.adj x, y = x)
    {s : String} {n : Nat} {v : String} (hr : ReachN g s n v) : v = s := by
  induction hr with
  | refl => rfl
  | step hr hz ih => exact (h _ _ hz).trans ih

/-- A walk in the graph with an added self-loop at u yields a walk in
the original graph that is no longer. -/
theorem reach_dropSelfLoop {g : Graph} {u s : String} :
    ∀ {n : Nat} {v : String}, ReachN (g.add_edges u u) s n v → ∃ m, m ≤ n ∧ ReachN g s m v := by
  intro n v h
  induction h with
  | refl => exact ⟨0, le_refl 0, ReachN.refl⟩
  | step hr hz ih =>
    obtain ⟨m, hle, hm⟩ := ih
    rcases mem_adj_add_edges.mp hz with hz' | ⟨h1, h2⟩ | ⟨h1, h2⟩
    · exact ⟨m + 1, by omega, ReachN.step hm hz'⟩
    · subst h2
      rw [h1] at hm
      exact ⟨m, by omega, hm⟩
    · subst h2
      rw [h1] at hm
      exact ⟨m, by omega, hm⟩

theorem valD_cons_self {k : String} {dv : Nat} {t : List (String × Nat)} :
    valD ((k, dv) :: t) k = dv := by
  simp [valD, lookupD]

theorem valD_cons_ne {k x : String} {dv : Nat} {t : List (String × Nat)} (h : x ≠ k) :
    valD ((k, dv) :: t) x = valD t x := by
  simp [valD, lookupD, h]

/-- On a map with unique keys, the positive-value sum is a sum over the
key set of the stored values. -/
theorem posDistSum_eq_sum : ∀ (m : List (String × Nat)), (m.map Prod.fst).Nodup →
    posDistSum m = Finset.sum (keysF m) (fun k => if 0 < valD m k then valD m k else 0) := by
  intro m
  induction m with
  | nil => intro _; simp [posDistSum, keysF]
  | cons p t ih =>
    intro hn
    obtain ⟨k, dv⟩ := p
    rw [List.map_cons, List.nodup_cons] at hn
    have hkt : k ∉ keysF t := by
      rw [keysF, List.mem_toFinset]
      exact hn.1
    have hkeys : keysF ((k, dv) :: t) = insert k (keysF t) := by
      simp [keysF]
    have hsum : posDistSum ((k, dv) :: t) = (if 0 < dv then dv else 0) + posDistSum t := by
      by_cases h : 0 < dv
      · simp [posDistSum, List.filter_cons, h]
      · simp [posDistSum, List.filter_cons, h]
    rw [hkeys, Finset.sum_insert hkt, hsum, ih hn.2, valD_cons_self]
    congr 1
    apply Finset.sum_congr rfl
    intro x hx
    have hx' : x ≠ k := by
      intro hxk
      subst hxk
      exact hkt hx
    rw [valD_cons_ne hx']

/-- Counting analogue of posDistSum_eq_sum. -/
theorem posDistCount_eq_sum : ∀ (m : List (String × Nat)), (m.map Prod.fst).Nodup →
    posDistCount m = Finset.sum (keysF m) (fun k => if 0 < valD m k then 1 else 0) := by
  intro m
  induction m with
  | nil => intro _; simp [posDistCount, keysF]
  | cons p t ih =>
    intro hn
    obtain ⟨k, dv⟩ := p
    rw [List.map_cons, List.nodup_cons] at hn
    have hkt : k ∉ keysF t := by
      rw [keysF, List.mem_toFinset]
      exact hn.1
    have hkeys : keysF ((k, dv) :: t) = insert k (keysF t) := by
      simp [keysF]
    have hsum : posDistCount ((k, dv) :: t) = (if 0 < dv then 1 else 0) + posDistCount t := by
      by_cases h : 0 < dv
      · simp only [posDistCount, List.map_cons, List.filter_cons]
        rw [if_pos (by simpa using h), if_pos h, List.length_cons]
        omega
      · simp [posDistCount, List.filter_cons, h]
    rw [hkeys, Finset.sum_insert hkt, hsum, ih hn.2, valD_cons_self]
    congr 1
    apply Finset.sum_congr rfl
    intro x hx
    have hx' : x ≠ k := by
      intro hxk
      subst hxk
      exact hkt hx
    rw [valD_cons_ne hx']

theorem posFilter_nil {m : List (String × Nat)} (h : ∀ p ∈ m, p.2 = 0) :
    (m.map Prod.snd).filter (fun dv => decide (0 < dv)) = [] := by
  rw [List.filter_eq_nil_iff]
  intro a ha
  rw [List.mem_map] at ha
  obtain ⟨p, hp, rfl⟩ := ha
  simp [h p hp]

theorem keysF_eq_of_lookup {m1 m2 : List (String × Nat)}
    (h : ∀ x, lookupD m1 x = lookupD m2 x) : keysF m1 = keysF m2 := by
  ext x
  rw [keysF, keysF, List.mem_toFinset, List.mem_toFinset,
    ← lookupD_isSome_iff, ← lookupD_isSome_iff, h x]

/-- Two unique-key maps with the same lookup function have the same
positive-value sum and count. -/
theorem posSums_eq_of_lookup {m1 m2 : List (String × Nat)}
    (h1 : (m1.map Prod.fst).Nodup) (h2 : (m2.map Prod.fst).Nodup)
    (h : ∀ x, lookupD m1 x = lookupD m2 x) :
    posDistSum m1 = posDistSum m2 ∧ posDistCount m1 = posDistCount m2 := by
  have hk := keysF_eq_of_lookup h
  have hv : ∀ x, valD m1 x = valD m2 x := by
    intro x
    rw [valD, valD, h x]
  constructor
  · rw [posDistSum_eq_sum _ h1, posDistSum_eq_sum _ h2, hk]
    apply Finset.sum_congr rfl
    intro x _
    rw [hv x]
  · rw [posDistCount_eq_sum _ h1, posDistCount_eq_sum _ h2, hk]
    apply Finset.sum_congr rfl
    intro x _
    rw [hv x]

/-- Claim C1: for every graph and start node, bfs_shortpath returns a
map in which start maps to 0, a node maps to dv exactly when dv is the
length of a shortest walk from start to it, and a node is absent exactly
when it is unreachable from start; for the path graph A-B-C-D built from
edges (A,B),(B,C),(C,D), bfs_shortpath from A yields
the map A:0, B:1, C:2, D:3. -/
theorem claim_C1 :
    (∀ (g : Graph) (s : String), ∃ m, g.bfs_shortpath s = some m ∧
      lookupD m s = some 0 ∧
      (∀ v dv, lookupD m v = some dv ↔ (ReachN g s dv v ∧ ∀ n, ReachN g s n v → dv ≤ n)) ∧
      (∀ v, lookupD m v = none ↔ ¬ ∃ n, ReachN g s n v)) ∧
    pathABCD.bfs_shortpath ("A") = some [(("A"), 0), (("B"), 1), (("C"), 2), (("D"), 3)] := by
  constructor
  · intro g s
    obtain ⟨m, hm, post⟩ := bfs_correct g s
    refine ⟨m, hm, post.start0, fun v dv => post.char v dv, ?_⟩
    intro v
    constructor
    · rintro hnone ⟨n, hn⟩
      obtain ⟨dv, hdv, _⟩ := post.complete hn
      rw [hnone] at hdv
      cases hdv
    · intro hnr
      cases hc : lookupD m v with
      | none => rfl
      | some dv => exact absurd ⟨dv, post.sound v dv hc⟩ hnr
  · decide

/-- Claim C6: for every graph built by create_undirected (equivalently,
by any sequence of add_edges calls starting from the empty graph), the
adjacency structure is symmetric: v is a neighbour of u exactly when u
is a neighbour of v. -/
theorem claim_C6 : ∀ (edges : List (String × String)) (u v : String),
    v ∈ (Graph.create_undirected edges).adj u ↔ u ∈ (Graph.create_undirected edges).adj v :=
  fun edges u v => symAdj_foldl edges Graph.new symAdj_new v u

/-- Claim C7: bfs_shortpath returns normally on every graph and every
start (a missing adjacency entry acts as an empty neighbour set and the
internal distances lookup always succeeds), and when start has no
adjacency entry the result is exactly the singleton map start:0. -/
theorem claim_C7 : ∀ (g : Graph) (start : String),
    (g.bfs_shortpath start).isSome = true ∧
    (g.adj start = [] → g.bfs_shortpath start = some [(start, 0)]) := by
  intro g start
  obtain ⟨m, hm, post⟩ := bfs_correct g start
  constructor
  · rw [hm]
    rfl
  · intro hadj
    have hall : ∀ p ∈ m, p = (start, 0) := by
      intro p hp
      obtain ⟨v, dv⟩ := p
      have hl := lookupD_of_mem_nodup post.nodupK hp
      have hv : v = start := reach_isolated hadj (post.sound v dv hl)
      subst hv
      rw [post.start0] at hl
      injection hl with hl
      rw [← hl]
    have hsm : (start, 0) ∈ m := mem_of_lookupD post.start0
    have hm1 : m = [(start, 0)] := by
      cases m with
      | nil => exact absurd hsm (List.not_mem_nil _)
      | cons p t =>
        have hp : p = (start, 0) := hall p (List.mem_cons_self _ _)
        subst hp
        cases t with
        | nil => rfl
        | cons p2 t2 =>
          have hp2 : p2 = (start, 0) := hall p2 (List.mem_cons_of_mem _ (List.mem_cons_self _ _))
          subst hp2
          have hnod := post.nodupK
          simp at hnod
    rw [hm, hm1]

/-- Claim C7 witness: on the empty graph and start Z the hypotheses of
claim_C7 hold and the singleton map is returned. -/
theorem claim_C7_witness :
    ((Graph.new.bfs_shortpath ("Z")).isSome = true) ∧
    Graph.new.bfs_shortpath ("Z") = some [(("Z"), 0)] :=
  ⟨(claim_C7 Graph.new ("Z")).1, (claim_C7 Graph.new ("Z")).2 rfl⟩

/-- Claim C8: adding the same edge twice yields the same graph as adding
it once; the second add_edges call changes neither the key set nor any
adjacency set. -/
theorem claim_C8 : ∀ (g : Graph) (u v : String),
    (g.add_edges u v).add_edges u v = g.add_edges u v := by
  intro g u v
  apply Graph.ext_of
  · show insert v (insert u (insert v (insert u g.nodes))) = insert v (insert u g.nodes)
    ext x
    simp only [Finset.mem_insert]
    tauto
  · funext x
    show addDirected (addDirected (addDirected (addDirected g.adj u v) v u) u v) v u x
        = addDirected (addDirected g.adj u v) v u x
    simp only [addDirected]
    by_cases hxv : x = v
    · by_cases hxu : x = u
      · have huv : v = u := by rw [← hxv, hxu]
        simp only [if_pos hxv, if_pos hxu, huv, listInsert_idem]
      · simp only [if_pos hxv, if_neg hxu, listInsert_idem]
    · by_cases hxu : x = u
      · simp only [if_neg hxv, if_pos hxu, listInsert_idem]
      · simp only [if_neg hxv, if_neg hxu]

/-- Claim C9: bfs_shortpath terminates on every graph and start: the
loop runs to completion within the fuel bound, each node is recorded
(hence enqueued) at most once, and the number of dequeued nodes is at
most the number of graph nodes plus one. -/
theorem claim_C9 : ∀ (g : Graph) (s : String), ∃ m, g.bfs_shortpath s = some m ∧
    (m.map Prod.fst).Nodup ∧ m.length ≤ g.nodes.card + 1 := by
  intro g s
  obtain ⟨m, hm, post⟩ := bfs_correct g s
  refine ⟨m, hm, post.nodupK, ?_⟩
  have h1 : (m.map Prod.fst).length = m.length := List.length_map _ _
  have h2 : (m.map Prod.fst).toFinset.card = (m.map Prod.fst).length :=
    List.toFinset_card_of_nodup post.nodupK
  have h3 : (m.map Prod.fst).toFinset ⊆ insert s g.nodes := by
    intro x hx
    rw [List.mem_toFinset] at hx
    exact post.kdom x hx
  have h4 := Finset.card_le_card h3
  have h5 : (insert s g.nodes).card ≤ g.nodes.card + 1 := Finset.card_insert_le _ _
  omega

/-- Claim C2 counterexample: on the path graph A-B-C-D the code's
average is not 1.5 (the positive distances sum to 20 over 12 counted
ordered pairs, so the average is 5/3). -/
theorem claim_C2_counterexample : pathABCD.average_shortpath ≠ some ((3 : ℚ)/2) := by
  have hl : pathABCD.total_length = 20 := by decide
  have hp : pathABCD.total_path = 12 := by decide
  rw [Graph.average_shortpath, hp, hl, if_neg (by norm_num : (12 : Nat) ≠ 0)]
  intro h
  injection h with h
  norm_num at h

/-- Claim C2 as amended: average_shortpath is the quotient of the summed
positive BFS distances over all nodes by their count, and on the path
graph A-B-C-D it equals 5/3 (total 20 over 12 counted ordered pairs, not
the 1.5 from total 12 over 8 that the spec claims). -/
theorem claim_C2 :
    (∀ g : Graph, g.total_path ≠ 0 →
      g.average_shortpath = some ((g.total_length : ℚ) / (g.total_path : ℚ))) ∧
    pathABCD.total_length = 20 ∧ pathABCD.total_path = 12 ∧
    pathABCD.average_shortpath = some ((5 : ℚ)/3) := by
  refine ⟨?_, by decide, by decide, ?_⟩
  · intro g h
    rw [Graph.average_shortpath, if_neg h]
  · have hl : pathABCD.total_length = 20 := by decide
    have hp : pathABCD.total_path = 12 := by decide
    rw [Graph.average_shortpath, hp, hl, if_neg (by norm_num : (12 : Nat) ≠ 0)]
    congr 1
    norm_num

/-- Claim C2 witness: the division form of the average is realised on
the path graph A-B-C, whose pair count is nonzero. -/
theorem claim_C2_witness :
    pathABC.total_path ≠ 0 ∧
    pathABC.average_shortpath = some ((pathABC.total_length : ℚ) / (pathABC.total_path : ℚ)) :=
  ⟨by decide, claim_C2.1 pathABC (by decide)⟩

/-- The three-record review list of the repository's sampler test. -/
def sampleReviewsExample : List Review :=
  [{ reviewer_id := "A1", asin := "B1" },
   { reviewer_id := "A2", asin := "B2" },
   { reviewer_id := "A3", asin := "B3" }]

/-- A concrete two-element draw from the entities of
sampleReviewsExample. -/
def chosenExample : Finset String := {"A1", "B2"}

/-- Claim C3: for every record list and target size, and every possible
draw of the sample id set (choose_multiple draws uniformly without
replacement min target (population size) ids from the distinct entities
of the records), sample_reviews returns exactly the original
(reviewer, asin) pairs of the records with at least one endpoint drawn;
in particular the output is a sublist of the original pairs and no
longer than the input. -/
theorem claim_C3 : ∀ (reviews : List Review) (target : Nat) (chosen : Finset String),
    chosen ⊆ unique_ids reviews → chosen.card = min target (unique_ids reviews).card →
    (sample_reviews reviews chosen).length ≤ reviews.length ∧
    List.Sublist (sample_reviews reviews chosen) (reviews.map (fun r => (r.reviewer_id, r.asin))) ∧
    (∀ p, p ∈ sample_reviews reviews chosen ↔
      ∃ r, r ∈ reviews ∧ (r.reviewer_id ∈ chosen ∨ r.asin ∈ chosen) ∧ p = (r.reviewer_id, r.asin)) := by
  intro reviews target chosen hsub hcard
  refine ⟨?_, ?_, ?_⟩
  · rw [sample_reviews, List.length_map]
    exact List.length_filter_le _ _
  · exact List.Sublist.map _ (List.filter_sublist _)
  · intro p
    rw [sample_reviews, List.mem_map]
    constructor
    · rintro ⟨r, hr, rfl⟩
      rw [List.mem_filter] at hr
      exact ⟨r, hr.1, by simpa using hr.2, rfl⟩
    · rintro ⟨r, hr, hcond, rfl⟩
      exact ⟨r, List.mem_filter.mpr ⟨hr, by simpa using hcond⟩, rfl⟩

/-- Claim C3 witness: a concrete draw of 2 of the 6 entities of the
three-record list keeps the two touched records. -/
theorem claim_C3_witness :
    (sample_reviews sampleReviewsExample chosenExample).length ≤ sampleReviewsExample.length :=
  (claim_C3 sampleReviewsExample 2 chosenExample (by decide) (by decide)).1

/-- Claim C4: on a graph with zero reachable ordered pairs (every edge a
self-loop, so every connected component is a single node - the empty
graph included), both accumulators stay 0, and average_shortpath
performs the 0/0 division, returning the undefined value (NaN, modelled
none) rather than signalling an error. -/
theorem claim_C4 : ∀ g : Graph, (∀ n ∈ g.nodes, ∀ v ∈ g.adj n, v = n) →
    g.total_length = 0 ∧ g.total_path = 0 ∧ g.average_shortpath = none := by
  intro g h
  have hglobal : ∀ x, ∀ y ∈ g.adj x, y = x := by
    intro x y hy
    by_cases hx : x ∈ g.nodes
    · exact h x hx y hy
    · rw [g.adj_dom x hx] at hy
      exact absurd hy (List.not_mem_nil _)
  have hzero : ∀ n, posDistSum ((g.bfs_shortpath n).getD []) = 0 ∧
      posDistCount ((g.bfs_shortpath n).getD []) = 0 := by
    intro n
    obtain ⟨m, hm, post⟩ := bfs_correct g n
    rw [hm]
    have hall : ∀ p ∈ m, p.2 = 0 := by
      intro p hp
      obtain ⟨v, dv⟩ := p
      have hl := lookupD_of_mem_nodup post.nodupK hp
      have hv : v = n := reach_selfloops hglobal (post.sound v dv hl)
      subst hv
      rw [post.start0] at hl
      injection hl with hl
      exact hl.symm
    constructor
    · show posDistSum m = 0
      rw [posDistSum, posFilter_nil hall]
      rfl
    · show posDistCount m = 0
      rw [posDistCount, posFilter_nil hall]
      rfl
  have hL : g.total_length = 0 := by
    rw [Graph.total_length]
    exact Finset.sum_eq_zero (fun n _ => (hzero n).1)
  have hP : g.total_path = 0 := by
    rw [Graph.total_path]
    exact Finset.sum_eq_zero (fun n _ => (hzero n).2)
  exact ⟨hL, hP, by rw [Graph.average_shortpath, if_pos hP]⟩

/-- Claim C4 witness: the empty graph has zero reachable pairs and an
undefined average. -/
theorem claim_C4_witness :
    Graph.new.total_length = 0 ∧ Graph.new.total_path = 0 ∧
    Graph.new.average_shortpath = none :=
  claim_C4 Graph.new (fun n hn => absurd hn (Finset.not_mem_empty n))

/-- Claim C5 counterexample: the average of the path graph A-B-C is not
1.0 (its positive distances sum to 8 over 6 counted pairs: 4/3). -/
theorem claim_C5_counterexample : pathABC.average_shortpath ≠ some (1 : ℚ) := by
  have hl : pathABC.total_length = 8 := by decide
  have hp : pathABC.total_path = 6 := by decide
  rw [Graph.average_shortpath, hp, hl, if_neg (by norm_num : (6 : Nat) ≠ 0)]
  intro h
  injection h with h
  norm_num at h

/-- Claim C5 as amended: the average of the path graph A-B-C is 4/3
(not 1.0), the average of the path graph A-B-D-E is 5/3, strictly
larger, and the comparator reports graph 1's average as the smaller. -/
theorem claim_C5 :
    pathABC.average_shortpath = some ((4 : ℚ)/3) ∧
    pathABDE.average_shortpath = some ((5 : ℚ)/3) ∧
    ((4 : ℚ)/3 < (5 : ℚ)/3) ∧
    (compare_average_shortpaths pathABC pathABDE).verdict = Verdict.graph1Shorter := by
  have ha1 : pathABC.average_shortpath = some ((4 : ℚ)/3) := by
    have hl : pathABC.total_length = 8 := by decide
    have hp : pathABC.total_path = 6 := by decide
    rw [Graph.average_shortpath, hp, hl, if_neg (by norm_num : (6 : Nat) ≠ 0)]
    congr 1
    norm_num
  have ha2 : pathABDE.average_shortpath = some ((5 : ℚ)/3) := by
    have hl : pathABDE.total_length = 20 := by decide
    have hp : pathABDE.total_path = 12 := by decide
    rw [Graph.average_shortpath, hp, hl, if_neg (by norm_num : (12 : Nat) ≠ 0)]
    congr 1
    norm_num
  have hlt : optLt (some ((4 : ℚ)/3)) (some ((5 : ℚ)/3)) = true := by
    simp only [optLt, decide_eq_true_eq]
    norm_num
  refine ⟨ha1, ha2, by norm_num, ?_⟩
  rw [compare_average_shortpaths]
  simp only [ha1, ha2, hlt]
  rfl

/-- Claim C10: a self-loop is inert for the analysis.  Adding the edge
(u, u) leaves every BFS distance map unchanged (pointwise on lookups; in
particular u maps to 0 when it is the start, whether or not it was
already a node), keeps both average_shortpath accumulators identical,
and therefore leaves the average itself unchanged. -/
theorem claim_C10 : ∀ (g : Graph) (u : String),
    (∀ s v, lookupD (((g.add_edges u u).bfs_shortpath s).getD []) v
        = lookupD ((g.bfs_shortpath s).getD []) v) ∧
    (g.add_edges u u).total_length = g.total_length ∧
    (g.add_edges u u).total_path = g.total_path ∧
    (g.add_edges u u).average_shortpath = g.average_shortpath := by
  intro g u
  have hmono : ∀ x y, y ∈ g.adj x → y ∈ (g.add_edges u u).adj x :=
    fun x y hy => mem_adj_add_edges.mpr (Or.inl hy)
  have hlook : ∀ s v, lookupD (((g.add_edges u u).bfs_shortpath s).getD []) v
      = lookupD ((g.bfs_shortpath s).getD []) v := by
    intro s v
    obtain ⟨m1, hm1, post1⟩ := bfs_correct (g.add_edges u u) s
    obtain ⟨m2, hm2, post2⟩ := bfs_correct g s
    rw [hm1, hm2]
    show lookupD m1 v = lookupD m2 v
    cases hc : lookupD m2 v with
    | some dv =>
      rw [post2.char v dv] at hc
      have h1 : ReachN (g.add_edges u u) s dv v := ReachN.mono hmono hc.1
      have h2 : ∀ n, ReachN (g.add_edges u u) s n v → dv ≤ n := by
        intro n hn
        obtain ⟨mw, hle, hmw⟩ := reach_dropSelfLoop hn
        exact le_trans (hc.2 mw hmw) hle
      exact (post1.char v dv).mpr ⟨h1, h2⟩
    | none =>
      cases hc1 : lookupD m1 v with
      | none => rfl
      | some dv =>
        exfalso
        have hr1 := post1.sound v dv hc1
        obtain ⟨mw, _, hmw⟩ := reach_dropSelfLoop hr1
        obtain ⟨dv', hdv', _⟩ := post2.complete hmw
        rw [hc] at hdv'
        cases hdv'
  have hnodsum : ∀ n, posDistSum (((g.add_edges u u).bfs_shortpath n).getD [])
      = posDistSum ((g.bfs_shortpath n).getD []) ∧
      posDistCount (((g.add_edges u u).bfs_shortpath n).getD [])
      = posDistCount ((g.bfs_shortpath n).getD []) := by
    intro n
    obtain ⟨m1, hm1, post1⟩ := bfs_correct (g.add_edges u u) n
    obtain ⟨m2, hm2, post2⟩ := bfs_correct g n
    have hl : ∀ x, lookupD m1 x = lookupD m2 x := by
      intro x
      have h := hlook n x
      rw [hm1, hm2] at h
      exact h
    rw [hm1, hm2]
    exact posSums_eq_of_lookup post1.nodupK post2.nodupK hl
  have huterm : u ∉ g.nodes →
      posDistSum (((g.add_edges u u).bfs_shortpath u).getD []) = 0 ∧
      posDistCount (((g.add_edges u u).bfs_shortpath u).getD []) = 0 := by
    intro hu
    have hadj : g.adj u = [] := g.adj_dom u hu
    obtain ⟨m2, hm2, post2⟩ := bfs_correct g u
    have hall : ∀ p ∈ m2, p.2 = 0 := by
      intro p hp
      obtain ⟨v, dv⟩ := p
      have hlv := lookupD_of_mem_nodup post2.nodupK hp
      have hv : v = u := reach_isolated hadj (post2.sound v dv hlv)
      subst hv
      rw [post2.start0] at hlv
      injection hlv with hlv
      exact hlv.symm
    constructor
    · rw [(hnodsum u).1, hm2]
      show posDistSum m2 = 0
      rw [posDistSum, posFilter_nil hall]
      rfl
    · rw [(hnodsum u).2, hm2]
      show posDistCount m2 = 0
      rw [posDistCount, posFilter_nil hall]
      rfl
  have hnodes : (g.add_edges u u).nodes = insert u g.nodes := by
    show insert u (insert u g.nodes) = insert u g.nodes
    rw [Finset.insert_idem]
  have hTL : (g.add_edges u u).total_length = g.total_length := by
    rw [Graph.total_length, Graph.total_length, hnodes]
    by_cases hu : u ∈ g.nodes
    · rw [Finset.insert_eq_self.mpr hu]
      exact Finset.sum_congr rfl (fun n _ => (hnodsum n).1)
    · rw [Finset.sum_insert hu, (huterm hu).1, Nat.zero_add]
      exact Finset.sum_congr rfl (fun n _ => (hnodsum n).1)
  have hTP : (g.add_edges u u).total_path = g.total_path := by
    rw [Graph.total_path, Graph.total_path, hnodes]
    by_cases hu : u ∈ g.nodes
    · rw [Finset.insert_eq_self.mpr hu]
      exact Finset.sum_congr rfl (fun n _ => (hnodsum n).2)
    · rw [Finset.sum_insert hu, (huterm hu).2, Nat.zero_add]
      exact Finset.sum_congr rfl (fun n _ => (hnodsum n).2)
  refine ⟨hlook, hTL, hTP, ?_⟩
  rw [Graph.average_shortpath, Graph.average_shortpath, hTL, hTP]
